import Mathlib

/-!
# Table-cache read path with a learned-index fast path

A shallow embedding of `db/table_cache.cc` (FindTable, FindFile, Get, LevelRead)
and of `scode/str_int.h` (toCode), followed by theorems about them.

Conventions of the embedding.

* Unsigned 64-bit quantities (positions, byte offsets, sizes) are naturals; their sums
  and products are not reduced, a table file being shorter than `2 ^ 64` bytes.  The two
  places where the source narrows to 32 bits, `uint32_t mid = (left + right) / 2` and
  `left = mid + 1`, are reduced modulo `2 ^ 32`, and the `size_t` subtractions
  (`pos_block_upper - pos_block_lower + 1`, `mid - pos_block_lower`,
  `left - pos_block_lower`) wrap modulo `2 ^ 64`.
* `assert` is active: a failed assertion, a null dereference and a division by
  zero end the run (`Ending.abort`, `Outcome.abort`).
* The `while (left < right)` loop is driven by a fuel argument; running out of fuel
  is `Ending.diverge`.
* `file` may be a null pointer (`none`); `file->Read` on it ends the run.
* `Read` copies into the caller's buffer, so the slice `entries` aliases the static
  `scratch[4096]` of `LevelRead`.  The content of `scratch` is part of the state: the
  bytes a read delivers replace its front, the rest stays as earlier reads left it, and
  the reader decodes up to `read_size` bytes of it whatever `entries.size()` is.  A read
  of more than 4096 bytes overruns the buffer and ends the run.
* Timers and counters of `adgMod::Stats` are advisory and are left out.
-/

namespace leveldb

/-! ## Status -/

/-- Error codes of `leveldb::Status`. -/
inductive Code where
  | NotFound
  | Corruption
  | NotSupported
  | InvalidArgument
  | IOError
  deriving DecidableEq, Repr

/-- A `leveldb::Status`: success, or an error with its code. -/
inductive Status where
  | OK
  | error (code : Code)
  deriving DecidableEq, Repr

/-- Mirror of `Status::ok()`. -/
def Status.ok : Status → Bool
  | .OK => true
  | .error _ => false

/-! ## Block geometry and files -/

/-- The globals `adgMod::block_num_entries`, `adgMod::block_size`, `adgMod::entry_size`. -/
structure Geometry where
  block_num_entries : Nat
  block_size : Nat
  entry_size : Nat
  deriving DecidableEq, Repr

/-- What `DecodeEntry` stores through its out-parameters: the shared-bytes count, the
key slice of `non_shared` bytes, and the value slice that follows it. -/
structure DecodedEntry (K V : Type) where
  shared : Nat
  key : K
  value : V
  deriving DecidableEq, Repr

/-- A random-access file as the learned reader sees it: the status `Read(offset, n)`
returns, the number of bytes that read delivers (`entries.size()`, smaller than `n` for a
short read), and for every byte offset the entry whose encoding starts there (`none` where
the bytes are not an entry). -/
structure RandomAccessFile (K V : Type) where
  Read : Nat → Nat → Status
  got : Nat → Nat → Nat
  data : Nat → Option (DecodedEntry K V)

/-- Capacity of `static char scratch[4096]`  (table_cache.cc line 297). -/
def scratchSize : Nat := 4096

/-- Content of the scratch buffer: for every byte offset of the buffer, what `DecodeEntry`
finds in the bytes that start there. -/
abbrev Scratch (K V : Type) : Type := Nat → Option (DecodedEntry K V)

/-- The scratch buffer after `file->Read(base, n, &entries, scratch)`: an entry that lies
inside the `entries.size()` bytes delivered is the file's entry at that place, and every
other offset still holds what the buffer held before (an entry the delivered bytes cover
only in part counts as not delivered). -/
def readInto {K V : Type} (g : Geometry) (scratch : Scratch K V)
    (file : RandomAccessFile K V) (base n : Nat) : Scratch K V :=
  fun off => if off + g.entry_size ≤ file.got base n then file.data (base + off)
    else scratch off

/-- A `FilterBlockReader`: `KeyMayMatch(block_offset, key)`. -/
structure FilterBlockReader (K : Type) where
  KeyMayMatch : Nat → K → Bool

/-- Wrapping subtraction of two `size_t` values. -/
def sub64 (a b : Nat) : Nat := (a + 2 ^ 64 - b) % 2 ^ 64

/-- Modelled from the spec: `DecodeEntry` of table/block.cc, which is not among the sources.
The buffer `entries.data()` is decoded at offset `off` with the limit
`entries.data() + read_size`: the decoder yields a null pointer when the entry (of
`entry_size` bytes) does not end before the limit, and what the buffer holds at that place
otherwise.  An offset that has wrapped is past every limit, so a pointer outside the
buffer decodes nothing. -/
def DecodeEntry {K V : Type} (g : Geometry) (entries : Scratch K V)
    (off read_size : Nat) : Option (DecodedEntry K V) :=
  if off + g.entry_size ≤ read_size then entries off else none

/-! ## The learned reader: one candidate block -/

/-- In-block lower position of candidate block `i`  (table_cache.cc line 292). -/
def pos_block_lower (g : Geometry) (lower index_lower i : Nat) : Nat :=
  if i = index_lower then lower % g.block_num_entries else 0

/-- In-block upper position of candidate block `i`  (table_cache.cc line 293). -/
def pos_block_upper (g : Geometry) (upper index_upper i : Nat) : Nat :=
  if i = index_upper then upper % g.block_num_entries else g.block_num_entries - 1

/-- Size of the bounded read, `(pos_block_upper - pos_block_lower + 1) * entry_size`
(table_cache.cc line 296); the difference plus one is taken modulo `2 ^ 64`. -/
def read_size (g : Geometry) (pos_lo pos_hi : Nat) : Nat :=
  sub64 (pos_hi + 1) pos_lo * g.entry_size

/-- Result of the binary search loop: the final `left` together with the entry
indices the loop decoded, in order. -/
inductive SearchResult where
  | done (left : Nat) (probes : List Nat)
  | corrupt (probes : List Nat)
  | outOfFuel (probes : List Nat)
  deriving DecidableEq, Repr

/-- The loop `while (left < right)` of table_cache.cc lines 308-323.  `probe mid` is the
outcome of decoding entry `mid` and comparing its key with the lookup key: `none` when
the entry is corrupt, `some comp` otherwise. -/
def binarySearch (probe : Nat → Option Int) : Nat → Nat → Nat → List Nat → SearchResult
  | 0, left, right, probes =>
    if left < right then .outOfFuel probes else .done left probes
  | fuel + 1, left, right, probes =>
    if left < right then
      let mid := (left + right) / 2 % 2 ^ 32
      match probe mid with
      | none => .corrupt (probes ++ [mid])
      | some comp =>
        if comp < 0 then binarySearch probe fuel ((mid + 1) % 2 ^ 32) right (probes ++ [mid])
        else binarySearch probe fuel left mid (probes ++ [mid])
    else .done left probes

/-- One evaluation of the loop body's decode-and-compare  (lines 310-317). -/
def probeEntry {K V : Type} (g : Geometry) (cmp : K → K → Int) (entries : Scratch K V)
    (k : K) (pos_lo rsize : Nat) (mid : Nat) : Option Int :=
  match DecodeEntry g entries (sub64 mid pos_lo * g.entry_size) rsize with
  | none => none
  | some e => if e.shared ≠ 0 then none else some (cmp e.key k)

/-- The test `filter != nullptr && !filter->KeyMayMatch(block_offset, k)`  (line 285). -/
def filterRejects {K : Type} (filter : Option (FilterBlockReader K)) (block_offset : Nat)
    (k : K) : Bool :=
  match filter with
  | none => false
  | some flt => !flt.KeyMayMatch block_offset k

/-- What processing one candidate block does. -/
inductive BlockResult (K V : Type) where
  | skipped
  | callback (key : K) (value : V)
  | abort
  | diverge
  deriving DecidableEq, Repr

/-- Body of the block loop up to the callback  (table_cache.cc lines 284-334): what the
block does, and the scratch buffer afterwards. -/
def readBlock {K V : Type} (g : Geometry) (cmp : K → K → Int)
    (file : Option (RandomAccessFile K V)) (filter : Option (FilterBlockReader K))
    (k : K) (fuel lower upper index_lower index_upper : Nat) (scratch : Scratch K V)
    (i : Nat) : BlockResult K V × Scratch K V :=
  let block_offset := i * g.block_size
  if filterRejects filter block_offset k then (.skipped, scratch)
  else
    let pos_lo := pos_block_lower g lower index_lower i
    let pos_hi := pos_block_upper g upper index_upper i
    let rsize := read_size g pos_lo pos_hi
    let base := block_offset + pos_lo * g.entry_size
    match file with
    | none => (.abort, scratch)
    | some f =>
      if scratchSize < rsize then (.abort, scratch)
      else if !(f.Read base rsize).ok then (.abort, scratch)
      else
        let entries := readInto g scratch f base rsize
        match binarySearch (probeEntry g cmp entries k pos_lo rsize) fuel pos_lo pos_hi [] with
        | .corrupt _ => (.abort, entries)
        | .outOfFuel _ => (.diverge, entries)
        | .done left _ =>
          match DecodeEntry g entries (sub64 left pos_lo * g.entry_size) rsize with
          | none => (.abort, entries)
          | some e =>
            if e.shared ≠ 0 then (.abort, entries) else (.callback e.key e.value, entries)

/-! ## The learned reader: the block loop -/

/-- How a run ends. -/
inductive Ending where
  | returned
  | abort
  | diverge
  deriving DecidableEq, Repr

/-- State at the end of the block loop: how it ended, the caller's `arg` as the callback
left it, the `handle_result` invocations made, in order, and the scratch buffer. -/
structure LoopResult (σ K V : Type) where
  ending : Ending
  arg : σ
  calls : List (K × V)
  scratch : Scratch K V

/-- The loop `for (i = index_lower; i <= index_upper; ++i)` of table_cache.cc lines
280-338; `count` is the number of iterations left and `i` the current block. -/
def blockLoop {σ K V : Type} (g : Geometry) (cmp : K → K → Int)
    (handle_result : σ → K → V → σ) (IsFound : σ → Bool)
    (file : Option (RandomAccessFile K V)) (filter : Option (FilterBlockReader K))
    (k : K) (fuel lower upper index_lower index_upper : Nat) :
    Nat → Nat → σ → List (K × V) → Scratch K V → LoopResult σ K V
  | 0, _, arg, calls, scratch => ⟨.returned, arg, calls, scratch⟩
  | count + 1, i, arg, calls, scratch =>
    match readBlock g cmp file filter k fuel lower upper index_lower index_upper scratch i with
    | (.skipped, scratch1) =>
      blockLoop g cmp handle_result IsFound file filter k fuel lower upper index_lower
        index_upper count (i + 1) arg calls scratch1
    | (.callback key value, scratch1) =>
      let arg1 := handle_result arg key value
      if IsFound arg1 then ⟨.returned, arg1, calls ++ [(key, value)], scratch1⟩
      else
        blockLoop g cmp handle_result IsFound file filter k fuel lower upper index_lower
          index_upper count (i + 1) arg1 (calls ++ [(key, value)]) scratch1
    | (.abort, scratch1) => ⟨.abort, arg, calls, scratch1⟩
    | (.diverge, scratch1) => ⟨.diverge, arg, calls, scratch1⟩

/-- Lines 277-338 of `TableCache::LevelRead`: the block span and the loop over it. -/
def LevelReadBlocks {σ K V : Type} (g : Geometry) (cmp : K → K → Int)
    (handle_result : σ → K → V → σ) (IsFound : σ → Bool)
    (file : Option (RandomAccessFile K V)) (filter : Option (FilterBlockReader K))
    (k : K) (fuel lower upper : Nat) (arg : σ) (scratch : Scratch K V) :
    LoopResult σ K V :=
  if g.block_num_entries = 0 then ⟨.abort, arg, [], scratch⟩
  else
    let index_lower := lower / g.block_num_entries
    let index_upper := upper / g.block_num_entries
    blockLoop g cmp handle_result IsFound file filter k fuel lower upper index_lower
      index_upper (index_upper + 1 - index_lower) index_lower arg [] scratch

/-- Global position of in-block position `pos` of block `i`. -/
def globalPos (g : Geometry) (i pos : Nat) : Nat := i * g.block_num_entries + pos


/-! ## The LRU cache -/

/-- The two caches a `TableCache` owns: `cache_` (handle cache) and `file_cache`
(file+filter cache). -/
inductive CacheId where
  | cache_
  | file_cache
  deriving DecidableEq, Repr

/-- Modelled from the spec: one cache entry, with the handle that names it, its key (the
file number, which `EncodeFixed64` encodes injectively), its value, the number of handle
references handed out and not yet released, and whether the cache itself still holds the
entry. -/
structure CacheEntry (α : Type) where
  handle : Nat
  key : Nat
  value : α
  refs : Nat
  in_cache : Bool

/-- Modelled from the spec: the LRU cache behind `Cache::Lookup`, `Insert`, `Release` and
`Value` (util/cache.cc is not among the sources).  Capacity is measured in entries; the
entries are kept least recently used first. -/
structure Cache (α : Type) where
  capacity : Nat
  next_handle : Nat
  entries : List (CacheEntry α)

/-- Modelled from the spec: `Cache::Lookup`.  On a hit it returns an additional reference;
on a miss it returns null and changes nothing. -/
def Cache.Lookup {α : Type} (c : Cache α) (key : Nat) : Option Nat × Cache α :=
  match c.entries.find? (fun e => e.in_cache && e.key == key) with
  | none => (none, c)
  | some e =>
    let bump : CacheEntry α → CacheEntry α :=
      fun x => if x.handle = e.handle then { x with refs := x.refs + 1 } else x
    (some e.handle, { c with entries := c.entries.map bump })

/-- Modelled from the spec: the eviction step of `Cache::Insert`, which drops up to `k`
unreferenced resident entries, least recently used first. -/
def evictOldest {α : Type} : Nat → List (CacheEntry α) → List (CacheEntry α)
  | 0, es => es
  | _, [] => []
  | k + 1, e :: es =>
    if e.in_cache && e.refs == 0 then evictOldest k es else e :: evictOldest (k + 1) es

/-- Modelled from the spec: `Cache::Insert`.  The new entry is resident and carries the
one reference returned to the caller; an older resident entry with the same key leaves the
cache; entries beyond the capacity that nobody references are evicted. -/
def Cache.Insert {α : Type} (c : Cache α) (key : Nat) (value : α) : Nat × Cache α :=
  let h := c.next_handle
  let olds := c.entries.map
    (fun x => if x.in_cache && x.key == key then { x with in_cache := false } else x)
  let kept := olds.filter (fun x => x.in_cache || x.refs != 0)
  let all := kept ++ [{ handle := h, key := key, value := value, refs := 1, in_cache := true }]
  let resident := (all.filter (fun x => x.in_cache)).length
  (h, { capacity := c.capacity, next_handle := h + 1,
        entries := evictOldest (resident - c.capacity) all })

/-- Modelled from the spec: `Cache::Release`.  Drops one reference; an entry that has left
the cache is destroyed with its last reference. -/
def Cache.Release {α : Type} (c : Cache α) (h : Nat) : Cache α :=
  match c.entries.find? (fun e => e.handle == h) with
  | none => c
  | some e =>
    let rest := c.entries.filter (fun x => x.handle != h)
    if e.refs - 1 = 0 ∧ e.in_cache = false then { c with entries := rest }
    else { c with entries := rest ++ [{ e with refs := e.refs - 1 }] }

/-- Modelled from the spec: `Cache::Value`, the value behind a handle. -/
def Cache.Value {α : Type} (c : Cache α) (h : Nat) : Option α :=
  (c.entries.find? (fun e => e.handle == h)).map (fun e => e.value)

/-- Result of `TableFileName(dbname_, n)` (`ldb`) and of `SSTTableFileName(dbname_, n)`
(`sst`), the legacy name. -/
inductive FileName where
  | ldb (file_number : Nat)
  | sst (file_number : Nat)
  deriving DecidableEq, Repr

/-- The struct `TableAndFile` of table_cache.cc. -/
structure TableAndFile (K V T : Type) where
  file : RandomAccessFile K V
  table : T

/-- The struct `FilterAndFile`; both pointers may be null. -/
structure FilterAndFile (K V : Type) where
  file : Option (RandomAccessFile K V)
  filter : Option (FilterBlockReader K)

/-- The fields of `FileMetaData` that the read path looks at. -/
structure FileMetaData where
  number : Nat
  file_size : Nat
  deriving DecidableEq, Repr

/-- Outcomes of the steps by which `FindFile` loads a filter block (lines 200-228), each
a call into code outside the sources: the footer read, the footer decode, the metaindex
block read, whether the iterator is valid at the filter name, the decode of the filter
handle, the read of the filter block, and the reader built from that block. -/
structure FilterSteps (K : Type) where
  footer_read : Status
  footer_decode : Status
  meta_read : Status
  meta_found : Bool
  handle_decode : Status
  filter_read : Status
  filter : FilterBlockReader K

/-- The collaborators the read path calls into: the filesystem, `Table::Open`,
`Table::InternalGet` (its status and the `handle_result` invocations it makes),
the filter-loading steps, the model registry `adgMod::file_data`, `ParseInternalKey`, and
`VersionSet::IsFound`. -/
structure Env (σ K V T : Type) where
  NewRandomAccessFile : FileName → Except Code (RandomAccessFile K V)
  NewRandomAccessFileLearned : FileName → Except Code (RandomAccessFile K V)
  TableOpen : RandomAccessFile K V → Nat → Except Code T
  InternalGet : T → K → Option FileMetaData → Nat → Nat → Bool → Nat → Status × List (K × V)
  filterSteps : RandomAccessFile K V → Nat → FilterSteps K
  Learned : Nat → FileMetaData → Bool
  GetPosition : K → Nat → Nat × Nat
  user_key : K → K
  IsFound : σ → Bool

/-- The globals and options the read path consults: `adgMod::MOD`, `adgMod::use_filter`,
whether `options_.filter_policy` is set, the block geometry, and
`adgMod::db->options_.comparator`. -/
structure Config (K : Type) where
  MOD : Int
  use_filter : Bool
  has_filter_policy : Bool
  geometry : Geometry
  comparator : K → K → Int

/-- The mutable state the read path works on: the two caches of the `TableCache`, and the
content of the function-local `static char scratch[4096]` of `LevelRead`, which outlives
the calls. -/
structure TableCache (K V T : Type) where
  cache_ : Cache (TableAndFile K V T)
  file_cache : Cache (FilterAndFile K V)
  scratch : Scratch K V

/-- The calls a run makes that the properties below speak about, in program order. -/
inductive Event (K V : Type) where
  | Lookup (c : CacheId) (key : Nat) (result : Option Nat)
  | Insert (c : CacheId) (key : Nat) (handle : Nat)
  | Release (c : CacheId) (handle : Nat)
  | NewRandomAccessFile (fname : FileName) (opened : Bool)
  | NewRandomAccessFileLearned (fname : FileName) (opened : Bool)
  | DeleteFile
  | Callback (key : K) (value : V)
  deriving DecidableEq, Repr

/-- How a call ends: it returns a value, or the run stops, or the fuel runs out. -/
inductive Outcome (α : Type) where
  | ret (a : α)
  | abort
  | diverge
  deriving DecidableEq, Repr

/-- A finished call: its outcome, the caches afterwards, and the events it produced. -/
structure Run (K V T α : Type) where
  out : Outcome α
  tc : TableCache K V T
  events : List (Event K V)

/-- The function `TableCache::FindTable` (lines 47-93): the status and `*handle`. -/
def TableCache.FindTable {σ K V T : Type} (env : Env σ K V T) (tc : TableCache K V T)
    (file_number file_size : Nat) : Run K V T (Status × Option Nat) :=
  match tc.cache_.Lookup file_number with
  | (some h, c1) =>
    ⟨.ret (.OK, some h), { tc with cache_ := c1 }, [.Lookup .cache_ file_number (some h)]⟩
  | (none, c1) =>
    let ev0 : List (Event K V) := [.Lookup .cache_ file_number none]
    -- s = env_->NewRandomAccessFile(fname, &file), then the legacy name
    let opened : Except Code (RandomAccessFile K V) × List (Event K V) :=
      match env.NewRandomAccessFile (.ldb file_number) with
      | .ok f => (.ok f, [.NewRandomAccessFile (.ldb file_number) true])
      | .error c =>
        match env.NewRandomAccessFile (.sst file_number) with
        | .ok f =>
          (.ok f, [.NewRandomAccessFile (.ldb file_number) false,
            .NewRandomAccessFile (.sst file_number) true])
        | .error _ =>
          (.error c, [.NewRandomAccessFile (.ldb file_number) false,
            .NewRandomAccessFile (.sst file_number) false])
    match opened with
    | (.error c, ev1) =>
      -- file is still null: delete file does nothing, and nothing is cached
      ⟨.ret (.error c, none), { tc with cache_ := c1 }, ev0 ++ ev1⟩
    | (.ok f, ev1) =>
      match env.TableOpen f file_size with
      | .error c =>
        -- table is null; delete file; nothing is cached
        ⟨.ret (.error c, none), { tc with cache_ := c1 }, ev0 ++ ev1 ++ [.DeleteFile]⟩
      | .ok table =>
        let ins := c1.Insert file_number { file := f, table := table }
        ⟨.ret (.OK, some ins.1), { tc with cache_ := ins.2 },
          ev0 ++ ev1 ++ [.Insert .cache_ file_number ins.1]⟩

/-- Lines 198-230 of `TableCache::FindFile`: the filter reader to cache with the file.  Each
`assert` that fails, and the `file->Read` on a null file, ends the run; the status of the
last `ReadBlock` is not looked at. -/
def loadFilter {σ K V T : Type} (cfg : Config K) (env : Env σ K V T)
    (file : Option (RandomAccessFile K V)) (file_size : Nat) :
    Outcome (Option (FilterBlockReader K)) :=
  if cfg.use_filter then
    match file with
    | none => .abort
    | some f =>
      let st := env.filterSteps f file_size
      if !st.footer_read.ok then .abort
      else if !st.footer_decode.ok then .abort
      else if cfg.has_filter_policy then
        if !st.meta_read.ok then .abort
        else if !st.meta_found then .abort
        else if !st.handle_decode.ok then .abort
        else .ret (some st.filter)
      else .ret none
  else .ret none

/-- The function `TableCache::FindFile` (lines 184-240): the cache handle. -/
def TableCache.FindFile {σ K V T : Type} (cfg : Config K) (env : Env σ K V T)
    (tc : TableCache K V T) (file_number file_size : Nat) : Run K V T Nat :=
  match tc.file_cache.Lookup file_number with
  | (some h, c1) =>
    ⟨.ret h, { tc with file_cache := c1 }, [.Lookup .file_cache file_number (some h)]⟩
  | (none, c1) =>
    -- env_->NewRandomAccessFileLearned(filename, &file); the status is dropped
    let file : Option (RandomAccessFile K V) :=
      match env.NewRandomAccessFileLearned (.ldb file_number) with
      | .ok f => some f
      | .error _ => none
    let ev1 : List (Event K V) :=
      [.Lookup .file_cache file_number none,
        .NewRandomAccessFileLearned (.ldb file_number) file.isSome]
    match loadFilter cfg env file file_size with
    | .ret filter =>
      let ins := c1.Insert file_number { file := file, filter := filter }
      ⟨.ret ins.1, { tc with file_cache := ins.2 },
        ev1 ++ [.Insert .file_cache file_number ins.1]⟩
    | .abort => ⟨.abort, { tc with file_cache := c1 }, ev1⟩
    | .diverge => ⟨.diverge, { tc with file_cache := c1 }, ev1⟩

/-- The `handle_result` invocations of a run as events. -/
def callbackEvents {K V : Type} (calls : List (K × V)) : List (Event K V) :=
  calls.map (fun c => Event.Callback c.1 c.2)

/-- The caller's `arg` after `handle_result` has been invoked on each pair in turn. -/
def applyCalls {σ K V : Type} (handle_result : σ → K → V → σ) (arg : σ)
    (calls : List (K × V)) : σ :=
  calls.foldl (fun a c => handle_result a c.1 c.2) arg

/-- The function `TableCache::LevelRead` (lines 242-343).  It returns nothing; the value of
the run is the caller's `arg` as the callback left it. -/
def TableCache.LevelRead {σ K V T : Type} (cfg : Config K) (env : Env σ K V T)
    (tc : TableCache K V T) (fuel file_number file_size : Nat) (k : K) (arg : σ)
    (handle_result : σ → K → V → σ) (m : FileMetaData) (lower upper : Nat)
    (learned : Bool) : Run K V T σ :=
  let found := TableCache.FindFile cfg env tc file_number file_size
  match found.out with
  | .abort => ⟨.abort, found.tc, found.events⟩
  | .diverge => ⟨.diverge, found.tc, found.events⟩
  | .ret cache_handle =>
    match found.tc.file_cache.Value cache_handle with
    | none => ⟨.abort, found.tc, found.events⟩
    | some filter_and_file =>
      let bounds : Nat × Nat :=
        if !learned then env.GetPosition (env.user_key k) m.number else (lower, upper)
      let r := LevelReadBlocks cfg.geometry cfg.comparator handle_result env.IsFound
        filter_and_file.file filter_and_file.filter k fuel bounds.1 bounds.2 arg
        found.tc.scratch
      match r.ending with
      | .abort =>
        ⟨.abort, { found.tc with scratch := r.scratch },
          found.events ++ callbackEvents r.calls⟩
      | .diverge =>
        ⟨.diverge, { found.tc with scratch := r.scratch },
          found.events ++ callbackEvents r.calls⟩
      | .returned =>
        ⟨.ret r.arg,
          { found.tc with
            file_cache := found.tc.file_cache.Release cache_handle
            scratch := r.scratch },
          found.events ++ callbackEvents r.calls ++ [.Release .file_cache cache_handle]⟩

/-- Lines 134-145 of `TableCache::Get`: the conventional reader. -/
def TableCache.GetConventional {σ K V T : Type} (env : Env σ K V T)
    (tc : TableCache K V T) (file_number file_size : Nat) (k : K) (arg : σ)
    (handle_result : σ → K → V → σ) (meta : Option FileMetaData) (lower upper : Nat)
    (learned : Bool) (version : Nat) : Run K V T (Status × σ) :=
  let ft := TableCache.FindTable env tc file_number file_size
  match ft.out with
  | .abort => ⟨.abort, ft.tc, ft.events⟩
  | .diverge => ⟨.diverge, ft.tc, ft.events⟩
  | .ret (s, handle) =>
    if s.ok then
      match handle.bind ft.tc.cache_.Value, handle with
      | some tf, some h =>
        let r := env.InternalGet tf.table k meta lower upper learned version
        ⟨.ret (r.1, applyCalls handle_result arg r.2),
          { ft.tc with cache_ := ft.tc.cache_.Release h },
          ft.events ++ callbackEvents r.2 ++ [.Release .cache_ h]⟩
      | _, _ => ⟨.abort, ft.tc, ft.events⟩
    else ⟨.ret (s, arg), ft.tc, ft.events⟩

/-- The function `TableCache::Get` (lines 117-146). -/
def TableCache.Get {σ K V T : Type} (cfg : Config K) (env : Env σ K V T)
    (tc : TableCache K V T) (fuel file_number file_size : Nat) (k : K) (arg : σ)
    (handle_result : σ → K → V → σ) (meta : Option FileMetaData) (lower upper : Nat)
    (learned : Bool) (version : Nat) : Run K V T (Status × σ) :=
  let conventional :=
    TableCache.GetConventional env tc file_number file_size k arg handle_result meta
      lower upper learned version
  if (cfg.MOD = 6 ∨ cfg.MOD = 7) ∧ meta.isSome then
    match meta with
    | none => conventional
    | some m =>
      if learned || env.Learned version m then
        let r := TableCache.LevelRead cfg env tc fuel file_number file_size k arg
          handle_result m lower upper learned
        match r.out with
        | .ret a => ⟨.ret (.OK, a), r.tc, r.events⟩
        | .abort => ⟨.abort, r.tc, r.events⟩
        | .diverge => ⟨.diverge, r.tc, r.events⟩
      else conventional
  else conventional

/-- The event hands out some handle. -/
def Event.isAcquire {K V : Type} : Event K V → Bool
  | .Lookup _ _ (some _) => true
  | .Insert _ _ _ => true
  | _ => false

/-- The event is a `handle_result` invocation. -/
def Event.isCallback {K V : Type} : Event K V → Bool
  | .Callback _ _ => true
  | _ => false

/-- The event is an attempt to open a file. -/
def Event.isOpenAttempt {K V : Type} : Event K V → Bool
  | .NewRandomAccessFile _ _ => true
  | .NewRandomAccessFileLearned _ _ => true
  | _ => false

/-- The cache an event operates on, if it is a cache operation. -/
def Event.cacheOf {K V : Type} : Event K V → Option CacheId
  | .Lookup c _ _ => some c
  | .Insert c _ _ => some c
  | .Release c _ => some c
  | _ => none

/-- The trigger condition of the learned reader in the words of the specification: the
mode selector is 6 or 7, file metadata is supplied, and the caller passed `learned = true`
or the model registry reports the model ready for this version and file. -/
def learnedPathSelected {σ K V T : Type} (cfg : Config K) (env : Env σ K V T)
    (meta : Option FileMetaData) (learned : Bool) (version : Nat) : Prop :=
  (cfg.MOD = 6 ∨ cfg.MOD = 7) ∧
    ∃ m, meta = some m ∧ (learned = true ∨ env.Learned version m = true)

end leveldb

/-! ## scode/str_int.h -/

/-- Value of `*max_element(c.begin(), c.end())` for a vector of chars. -/
def maxElement (c : List Int) : Int := c.foldl max (c.headD 0)

/-- Value of `*min_element(c.begin(), c.end())` for a vector of chars. -/
def minElement (c : List Int) : Int := c.foldl min (c.headD 0)

/-- The locals that the second loop of `toCode` updates. -/
structure Bases where
  based_char : List Int
  based : List Int
  pre_ba : Int
  ba : Int
  deriving DecidableEq, Repr

/-- One iteration of the loop over `i < max_lenth` (str_int.h lines 27-40).  A char is
its numeric value; `keys[j][i]` past the end of a shorter key reads as zero. -/
def toCodeStep (keys : List (List Int)) (st : Bases) (i : Nat) : Bases :=
  let compare := keys.map (fun key => key.getD i 0)
  let mx := maxElement compare
  let mn := minElement compare
  let ba := if i ≠ 0 then st.ba * st.pre_ba else st.ba
  { based_char := st.based_char ++ [mn], based := st.based ++ [ba],
    pre_ba := mx - mn + 1, ba := ba }

/-- The loop of str_int.h lines 41-48 for one key: `num`. -/
def toCodeNum (st : Bases) (key : List Int) : Int :=
  (List.range key.length).foldl
    (fun num j => num + st.based.getD j 0 * (key.getD j 0 - st.based_char.getD j 0)) 0

/-- The function `toCode` of str_int.h, the codes being unbounded integers. -/
def toCode (keys : List (List Int)) : List Int :=
  let keys := keys.map List.reverse
  let max_lenth := keys.foldl (fun m key => if key.length > m then key.length else m) 0
  let st := (List.range max_lenth).foldl (toCodeStep keys) ⟨[], [], 0, 1⟩
  keys.map (toCodeNum st)

/-- Smallest character in column `i` of the keys (`*min` of iteration `i`). -/
def colMin (keys : List (List Int)) (i : Nat) : Int :=
  minElement (keys.map (fun key => key.getD i 0))

/-- Largest character in column `i` of the keys (`*max` of iteration `i`). -/
def colMax (keys : List (List Int)) (i : Nat) : Int :=
  maxElement (keys.map (fun key => key.getD i 0))

/-- Place value of column `i`: the product of `max - min + 1` over the columns before. -/
def colBase (keys : List (List Int)) : Nat → Int
  | 0 => 1
  | i + 1 => colBase keys i * (colMax keys i - colMin keys i + 1)

/-- The sum `num` after the first `m` columns of a key. -/
def partialCode (keys : List (List Int)) (key : List Int) : Nat → Int
  | 0 => 0
  | m + 1 => partialCode keys key m + colBase keys m * (key.getD m 0 - colMin keys m)

/-- Lexicographic order on keys, characters compared by numeric value. -/
def lexLt : List Int → List Int → Bool
  | [], [] => false
  | [], _ :: _ => true
  | _ :: _, [] => false
  | x :: xs, y :: ys => x < y || (x == y && lexLt xs ys)

/-- The keys "abc", "abd", "baa", "aca" as character codes. -/
def sampleKeys : List (List Int) := [[97, 98, 99], [97, 98, 100], [98, 97, 97], [97, 99, 97]]

namespace leveldb

/-! ## Sample inputs -/

/-- A comparator on numeric keys: negative, zero or positive like `Compare`. -/
def cmpNat (a b : Nat) : Int := (a : Int) - (b : Int)

/-- Geometry of the samples: two entries of four bytes per block of eight bytes. -/
def sampleGeometry : Geometry := ⟨2, 8, 4⟩

/-- The sample table file: entry `q` is encoded at byte offset `4 * q`. -/
def sampleFile : RandomAccessFile Nat Nat where
  Read := fun _ _ => .OK
  got := fun _ n => n
  data := fun off =>
    if off % 4 = 0 ∧ off / 4 < 4 then some ⟨0, 10 * (off / 4 + 1), off / 4 + 1⟩ else none

/-- A callback that records nothing, for a caller that never reports "found". -/
def ignoreResult (_ : Unit) (_ : Nat) (_ : Nat) : Unit := ()

/-- The predicate of a caller that never reports "found". -/
def neverFound (_ : Unit) : Bool := false

/-- Filter-loading steps that all succeed; the filter lets every key through. -/
def sampleSteps : FilterSteps Nat where
  footer_read := .OK
  footer_decode := .OK
  meta_read := .OK
  meta_found := true
  handle_decode := .OK
  filter_read := .OK
  filter := ⟨fun _ _ => true⟩

/-- Collaborators for the sample table: every open succeeds and yields the sample file,
the model is ready and predicts the whole table, and the caller never reports "found". -/
def sampleEnv : Env Unit Nat Nat Unit where
  NewRandomAccessFile := fun _ => .ok sampleFile
  NewRandomAccessFileLearned := fun _ => .ok sampleFile
  TableOpen := fun _ _ => .ok ()
  InternalGet := fun _ _ _ _ _ _ _ => (.OK, [])
  filterSteps := fun _ _ => sampleSteps
  Learned := fun _ _ => true
  GetPosition := fun _ _ => (0, 3)
  user_key := fun k => k
  IsFound := neverFound

/-- Collaborators like the sample ones, where `Table::Open` finds the file corrupt. -/
def corruptTableEnv : Env Unit Nat Nat Unit :=
  { sampleEnv with TableOpen := fun _ _ => .error .Corruption }

/-- A filesystem on which no file can be opened. -/
def brokenEnv : Env Unit Nat Nat Unit :=
  { sampleEnv with
    NewRandomAccessFile := fun _ => .error .IOError
    NewRandomAccessFileLearned := fun _ => .error .IOError }

/-- Collaborators like the sample ones, where every read of the sample file fails. -/
def failingReadEnv : Env Unit Nat Nat Unit :=
  { sampleEnv with
    NewRandomAccessFileLearned := fun _ =>
      .ok { sampleFile with Read := fun _ _ => .error .IOError } }

/-- Collaborators like the sample ones, where the `ReadBlock` of the filter block fails. -/
def filterReadFailEnv : Env Unit Nat Nat Unit :=
  { sampleEnv with
    filterSteps := fun _ _ => { sampleSteps with filter_read := .error .IOError } }

/-- Learned mode 7 with filters on and a filter policy set, on the sample geometry. -/
def filterConfig : Config Nat := ⟨7, true, true, sampleGeometry, cmpNat⟩

/-- The scratch buffer as the program starts: zero bytes, which decode as entries with
key 0 and value 0. -/
def zeroScratch : Scratch Nat Nat := fun _ => some ⟨0, 0, 0⟩

/-- A table cache with nothing cached; both caches hold up to 64 entries. -/
def emptyTableCache : TableCache Nat Nat Unit := ⟨⟨64, 0, []⟩, ⟨64, 0, []⟩, zeroScratch⟩

/-- Learned mode 7 without filters, on the sample geometry. -/
def sampleConfig : Config Nat := ⟨7, false, false, sampleGeometry, cmpNat⟩

/-- A table cache whose handle cache already holds the table of file 3. -/
def warmTableCache : TableCache Nat Nat Unit :=
  ⟨⟨64, 1, [⟨0, 3, ⟨sampleFile, ()⟩, 0, true⟩]⟩, ⟨64, 0, []⟩, zeroScratch⟩

/-- The sample configuration with the learned mode switched off. -/
def conventionalConfig : Config Nat := ⟨0, false, false, sampleGeometry, cmpNat⟩

theorem pos_block_bounds (g : Geometry) (lower upper i : Nat)
    (hn : 0 < g.block_num_entries) (hle : lower ≤ upper)
    (hi1 : lower / g.block_num_entries ≤ i) (hi2 : i ≤ upper / g.block_num_entries) :
    pos_block_lower g lower (lower / g.block_num_entries) i
        ≤ pos_block_upper g upper (upper / g.block_num_entries) i ∧
      pos_block_upper g upper (upper / g.block_num_entries) i ≤ g.block_num_entries - 1 := by
  obtain ⟨n, bs, es⟩ := g
  simp only at hn hi1 hi2 ⊢
  unfold pos_block_lower pos_block_upper
  simp only
  have hml : lower % n < n := Nat.mod_lt _ hn
  have hmu : upper % n < n := Nat.mod_lt _ hn
  have h1 := Nat.div_add_mod lower n
  have h2 := Nat.div_add_mod upper n
  split_ifs with ha hb hb
  · refine ⟨?_, by omega⟩
    rw [← ha] at h1
    rw [← hb] at h2
    omega
  · omega
  · omega
  · omega

theorem globalPos_inj (g : Geometry) (i pos j pos2 : Nat)
    (h1 : pos ≤ g.block_num_entries - 1) (h2 : pos2 ≤ g.block_num_entries - 1)
    (hn : 0 < g.block_num_entries)
    (h : globalPos g i pos = globalPos g j pos2) : i = j ∧ pos = pos2 := by
  unfold globalPos at h
  have hi : i = j := by
    rcases Nat.lt_trichotomy i j with hlt | heq | hgt
    · have := Nat.mul_le_mul_right g.block_num_entries (Nat.succ_le_of_lt hlt)
      rw [Nat.succ_mul] at this
      omega
    · exact heq
    · have := Nat.mul_le_mul_right g.block_num_entries (Nat.succ_le_of_lt hgt)
      rw [Nat.succ_mul] at this
      omega
  subst hi
  exact ⟨rfl, by omega⟩

theorem globalPos_ge_lower (g : Geometry) (lower i pos : Nat)
    (hn : 0 < g.block_num_entries)
    (hi1 : lower / g.block_num_entries ≤ i)
    (hp1 : pos_block_lower g lower (lower / g.block_num_entries) i ≤ pos) :
    lower ≤ globalPos g i pos := by
  unfold globalPos
  unfold pos_block_lower at hp1
  have h1 := Nat.div_add_mod lower g.block_num_entries
  rw [Nat.mul_comm] at h1
  by_cases ha : i = lower / g.block_num_entries
  · rw [if_pos ha] at hp1
    rw [← ha] at h1
    omega
  · have hlt : lower / g.block_num_entries + 1 ≤ i := by omega
    have := Nat.mul_le_mul_right g.block_num_entries hlt
    rw [Nat.succ_mul] at this
    have := Nat.mod_lt lower hn
    omega

theorem globalPos_le_upper (g : Geometry) (upper i pos : Nat)
    (hn : 0 < g.block_num_entries)
    (hi2 : i ≤ upper / g.block_num_entries)
    (hp2 : pos ≤ pos_block_upper g upper (upper / g.block_num_entries) i) :
    globalPos g i pos ≤ upper := by
  unfold globalPos
  unfold pos_block_upper at hp2
  have h2 := Nat.div_add_mod upper g.block_num_entries
  rw [Nat.mul_comm] at h2
  by_cases hb : i = upper / g.block_num_entries
  · rw [if_pos hb] at hp2
    rw [← hb] at h2
    omega
  · rw [if_neg hb] at hp2
    have hlt : i + 1 ≤ upper / g.block_num_entries := by omega
    have := Nat.mul_le_mul_right g.block_num_entries hlt
    rw [Nat.succ_mul] at this
    omega

theorem pos_in_own_block (g : Geometry) (lower upper p : Nat)
    (hn : 0 < g.block_num_entries) (h1 : lower ≤ p) (h2 : p ≤ upper) :
    lower / g.block_num_entries ≤ p / g.block_num_entries ∧
      p / g.block_num_entries ≤ upper / g.block_num_entries ∧
      pos_block_lower g lower (lower / g.block_num_entries) (p / g.block_num_entries)
        ≤ p % g.block_num_entries ∧
      p % g.block_num_entries
        ≤ pos_block_upper g upper (upper / g.block_num_entries) (p / g.block_num_entries) ∧
      globalPos g (p / g.block_num_entries) (p % g.block_num_entries) = p := by
  have hd1 := Nat.div_le_div_right (c := g.block_num_entries) h1
  have hd2 := Nat.div_le_div_right (c := g.block_num_entries) h2
  have e1 := Nat.div_add_mod lower g.block_num_entries
  have e2 := Nat.div_add_mod upper g.block_num_entries
  have e3 := Nat.div_add_mod p g.block_num_entries
  have hm := Nat.mod_lt p hn
  refine ⟨hd1, hd2, ?_, ?_, ?_⟩
  · unfold pos_block_lower
    split_ifs with ha
    · rw [ha] at e3; omega
    · exact Nat.zero_le _
  · unfold pos_block_upper
    split_ifs with hb
    · rw [hb] at e3; omega
    · omega
  · unfold globalPos
    rw [Nat.mul_comm]; exact e3

/-- C8: for `block_num_entries > 0` and `lower ≤ upper`, the in-block position ranges
that LevelRead computes for the candidate blocks `lower / n .. upper / n`, read as global
positions `i * n + pos`, have the inclusive range `[lower, upper]` as their union, and a
global position determines its block and in-block position, so the slices of different
candidate blocks are disjoint. -/
theorem candidate_blocks_cover_range (g : Geometry) (lower upper : Nat)
    (hn : 0 < g.block_num_entries) (hle : lower ≤ upper) :
    (∀ p : Nat,
      (∃ i pos, lower / g.block_num_entries ≤ i ∧ i ≤ upper / g.block_num_entries ∧
          pos_block_lower g lower (lower / g.block_num_entries) i ≤ pos ∧
          pos ≤ pos_block_upper g upper (upper / g.block_num_entries) i ∧
          globalPos g i pos = p) ↔ (lower ≤ p ∧ p ≤ upper)) ∧
    (∀ i pos j pos2 : Nat,
      lower / g.block_num_entries ≤ i → i ≤ upper / g.block_num_entries →
      pos_block_lower g lower (lower / g.block_num_entries) i ≤ pos →
      pos ≤ pos_block_upper g upper (upper / g.block_num_entries) i →
      lower / g.block_num_entries ≤ j → j ≤ upper / g.block_num_entries →
      pos_block_lower g lower (lower / g.block_num_entries) j ≤ pos2 →
      pos2 ≤ pos_block_upper g upper (upper / g.block_num_entries) j →
      globalPos g i pos = globalPos g j pos2 → i = j ∧ pos = pos2) := by
  constructor
  · intro p
    constructor
    · rintro ⟨i, pos, hi1, hi2, hp1, hp2, rfl⟩
      exact ⟨globalPos_ge_lower g lower i pos hn hi1 hp1,
        globalPos_le_upper g upper i pos hn hi2 hp2⟩
    · rintro ⟨h1, h2⟩
      obtain ⟨a, b, c, d, e⟩ := pos_in_own_block g lower upper p hn h1 h2
      exact ⟨p / g.block_num_entries, p % g.block_num_entries, a, b, c, d, e⟩
  · intro i pos j pos2 hi1 hi2 _ hp2 hj1 hj2 _ hq2 heq
    have b1 := (pos_block_bounds g lower upper i hn hle hi1 hi2).2
    have b2 := (pos_block_bounds g lower upper j hn hle hj1 hj2).2
    exact globalPos_inj g i pos j pos2 (le_trans hp2 b1) (le_trans hq2 b2) hn heq

/-- C8 at `n = 4`, `[lower, upper] = [5, 14]`. -/
theorem candidate_blocks_cover_range_witness :
    (0 < (Geometry.mk 4 64 16).block_num_entries ∧ 5 ≤ 14) ∧
    ((∀ p : Nat,
      (∃ i pos, 5 / (Geometry.mk 4 64 16).block_num_entries ≤ i ∧
          i ≤ 14 / (Geometry.mk 4 64 16).block_num_entries ∧
          pos_block_lower (Geometry.mk 4 64 16) 5 (5 / (Geometry.mk 4 64 16).block_num_entries) i
            ≤ pos ∧
          pos ≤ pos_block_upper (Geometry.mk 4 64 16) 14
            (14 / (Geometry.mk 4 64 16).block_num_entries) i ∧
          globalPos (Geometry.mk 4 64 16) i pos = p) ↔ (5 ≤ p ∧ p ≤ 14)) ∧
    (∀ i pos j pos2 : Nat,
      5 / (Geometry.mk 4 64 16).block_num_entries ≤ i →
      i ≤ 14 / (Geometry.mk 4 64 16).block_num_entries →
      pos_block_lower (Geometry.mk 4 64 16) 5 (5 / (Geometry.mk 4 64 16).block_num_entries) i
        ≤ pos →
      pos ≤ pos_block_upper (Geometry.mk 4 64 16) 14
        (14 / (Geometry.mk 4 64 16).block_num_entries) i →
      5 / (Geometry.mk 4 64 16).block_num_entries ≤ j →
      j ≤ 14 / (Geometry.mk 4 64 16).block_num_entries →
      pos_block_lower (Geometry.mk 4 64 16) 5 (5 / (Geometry.mk 4 64 16).block_num_entries) j
        ≤ pos2 →
      pos2 ≤ pos_block_upper (Geometry.mk 4 64 16) 14
        (14 / (Geometry.mk 4 64 16).block_num_entries) j →
      globalPos (Geometry.mk 4 64 16) i pos = globalPos (Geometry.mk 4 64 16) j pos2 →
      i = j ∧ pos = pos2)) :=
  ⟨⟨by decide, by decide⟩,
    candidate_blocks_cover_range (Geometry.mk 4 64 16) 5 14 (by decide) (by decide)⟩

/-! ## The binary search stays inside the slice -/

theorem Cache.Lookup_miss {α : Type} (c : Cache α) (key : Nat)
    (h : (c.Lookup key).1 = none) : c.Lookup key = (none, c) := by
  unfold Cache.Lookup at h ⊢
  split
  · rfl
  · rename_i e he
    rw [he] at h
    simp at h

/-- After a miss, `FindTable` attempts to open the canonical file name. -/
theorem FindTable_miss_opens {σ K V T : Type} (env : Env σ K V T) (tc : TableCache K V T)
    (file_number file_size : Nat) (hmiss : (tc.cache_.Lookup file_number).1 = none) :
    ∃ opened, Event.NewRandomAccessFile (.ldb file_number) opened ∈
      (TableCache.FindTable env tc file_number file_size).events := by
  unfold TableCache.FindTable
  rw [Cache.Lookup_miss _ _ hmiss]
  simp only
  cases h1 : env.NewRandomAccessFile (.ldb file_number) with
  | ok f =>
    refine ⟨true, ?_⟩
    simp only
    cases ht : env.TableOpen f file_size <;> simp
  | error c1 =>
    refine ⟨false, ?_⟩
    simp only
    cases h2 : env.NewRandomAccessFile (.sst file_number) with
    | ok f =>
      simp only
      cases ht : env.TableOpen f file_size <;> simp
    | error c2 => simp

/-- C5: a `FindTable` call that misses the handle cache and fails, because neither the
canonical nor the legacy name opens, or because the file opens and `Table::Open` fails,
returns a non-OK status with a null handle, deletes the file if and only if one was
opened, and leaves the table cache as it was; a later `FindTable` for the same file
number, whatever the filesystem then answers, attempts the open again. -/
theorem FindTable_failure_not_cached {σ K V T : Type} (env : Env σ K V T)
    (tc : TableCache K V T) (file_number file_size : Nat)
    (hmiss : (tc.cache_.Lookup file_number).1 = none)
    (hfail :
      (∃ c1 c2, env.NewRandomAccessFile (.ldb file_number) = .error c1 ∧
        env.NewRandomAccessFile (.sst file_number) = .error c2) ∨
      (∃ f c, (env.NewRandomAccessFile (.ldb file_number) = .ok f ∨
          ∃ c1, env.NewRandomAccessFile (.ldb file_number) = .error c1 ∧
            env.NewRandomAccessFile (.sst file_number) = .ok f) ∧
        env.TableOpen f file_size = .error c)) :
    (∃ c, (TableCache.FindTable env tc file_number file_size).out = .ret (.error c, none)) ∧
    (TableCache.FindTable env tc file_number file_size).tc = tc ∧
    (Event.DeleteFile ∈ (TableCache.FindTable env tc file_number file_size).events ↔
      ∃ name, Event.NewRandomAccessFile name true ∈
        (TableCache.FindTable env tc file_number file_size).events) ∧
    (∀ e ∈ (TableCache.FindTable env tc file_number file_size).events,
      e.isAcquire = false) ∧
    (∀ (env2 : Env σ K V T) (size2 : Nat), ∃ opened,
      Event.NewRandomAccessFile (.ldb file_number) opened ∈
        (TableCache.FindTable env2 (TableCache.FindTable env tc file_number file_size).tc
          file_number size2).events) := by
  have hsame : (TableCache.FindTable env tc file_number file_size).tc = tc ∧
      (∃ c, (TableCache.FindTable env tc file_number file_size).out
        = .ret (.error c, none)) ∧
      (Event.DeleteFile ∈ (TableCache.FindTable env tc file_number file_size).events ↔
        ∃ name, Event.NewRandomAccessFile name true ∈
          (TableCache.FindTable env tc file_number file_size).events) ∧
      (∀ e ∈ (TableCache.FindTable env tc file_number file_size).events,
        e.isAcquire = false) := by
    unfold TableCache.FindTable
    rw [Cache.Lookup_miss _ _ hmiss]
    simp only
    rcases hfail with ⟨c1, c2, h1, h2⟩ | ⟨f, c, hopen, ht⟩
    · rw [h1]
      simp only
      rw [h2]
      refine ⟨rfl, ⟨c1, rfl⟩, ?_, ?_⟩
      · simp
      · intro e he
        simp only [List.mem_append, List.mem_cons, List.mem_singleton, List.not_mem_nil,
          or_false] at he
        rcases he with he | he | he <;> subst he <;> rfl
    · rcases hopen with h1 | ⟨c1, h1, h2⟩
      · rw [h1]
        simp only
        rw [ht]
        refine ⟨rfl, ⟨c, rfl⟩, ?_, ?_⟩
        · simp
        · intro e he
          simp only [List.mem_append, List.mem_cons, List.mem_singleton, List.not_mem_nil,
            or_false] at he
          rcases he with (he | he) | he <;> subst he <;> rfl
      · rw [h1]
        simp only
        rw [h2]
        simp only
        rw [ht]
        refine ⟨rfl, ⟨c, rfl⟩, ?_, ?_⟩
        · simp
        · intro e he
          simp only [List.mem_append, List.mem_cons, List.mem_singleton, List.not_mem_nil,
            or_false] at he
          rcases he with (he | he | he) | he <;> subst he <;> rfl
  obtain ⟨h1, h2, h3, h4⟩ := hsame
  refine ⟨h2, h1, h3, h4, ?_⟩
  intro env2 size2
  rw [h1]
  exact FindTable_miss_opens env2 tc file_number size2 hmiss

/-! ## Reference counts of the cache -/

/-- C5 with the table of file 3 already cached: on a filesystem where nothing opens, and
on one where file 7 opens and `Table::Open` finds it corrupt. -/
theorem FindTable_failure_not_cached_witness :
    ((∃ c, (TableCache.FindTable brokenEnv warmTableCache 7 100).out
        = .ret (.error c, none)) ∧
      (TableCache.FindTable brokenEnv warmTableCache 7 100).tc = warmTableCache ∧
      (Event.DeleteFile ∈ (TableCache.FindTable brokenEnv warmTableCache 7 100).events ↔
        ∃ name, Event.NewRandomAccessFile name true ∈
          (TableCache.FindTable brokenEnv warmTableCache 7 100).events) ∧
      (∀ e ∈ (TableCache.FindTable brokenEnv warmTableCache 7 100).events,
        e.isAcquire = false) ∧
      (∀ (env2 : Env Unit Nat Nat Unit) (size2 : Nat), ∃ opened,
        Event.NewRandomAccessFile (.ldb 7) opened ∈
          (TableCache.FindTable env2 (TableCache.FindTable brokenEnv warmTableCache 7 100).tc
            7 size2).events)) ∧
    ((∃ c, (TableCache.FindTable corruptTableEnv warmTableCache 7 100).out
        = .ret (.error c, none)) ∧
      (TableCache.FindTable corruptTableEnv warmTableCache 7 100).tc = warmTableCache ∧
      (Event.DeleteFile ∈ (TableCache.FindTable corruptTableEnv warmTableCache 7 100).events ↔
        ∃ name, Event.NewRandomAccessFile name true ∈
          (TableCache.FindTable corruptTableEnv warmTableCache 7 100).events) ∧
      (∀ e ∈ (TableCache.FindTable corruptTableEnv warmTableCache 7 100).events,
        e.isAcquire = false) ∧
      (∀ (env2 : Env Unit Nat Nat Unit) (size2 : Nat), ∃ opened,
        Event.NewRandomAccessFile (.ldb 7) opened ∈
          (TableCache.FindTable env2
            (TableCache.FindTable corruptTableEnv warmTableCache 7 100).tc 7 size2).events)) :=
  ⟨FindTable_failure_not_cached brokenEnv warmTableCache 7 100 rfl
      (Or.inl ⟨.IOError, .IOError, rfl, rfl⟩),
    FindTable_failure_not_cached corruptTableEnv warmTableCache 7 100 rfl
      (Or.inr ⟨sampleFile, .Corruption, Or.inl rfl, rfl⟩)⟩

/-! ## Handles are paired -/

theorem callbackEvents_isCallback {K V : Type} (calls : List (K × V)) :
    ∀ e ∈ callbackEvents calls, e.isCallback = true := by
  intro e he
  unfold callbackEvents at he
  obtain ⟨c, _, rfl⟩ := List.mem_map.1 he
  rfl

theorem FindFile_events_cache {σ K V T : Type} (cfg : Config K) (env : Env σ K V T)
    (tc : TableCache K V T) (file_number file_size : Nat) :
    (∃ e ∈ (TableCache.FindFile cfg env tc file_number file_size).events,
      e.cacheOf = some .file_cache) ∧
    ∀ e ∈ (TableCache.FindFile cfg env tc file_number file_size).events,
      e.cacheOf ≠ some .cache_ := by
  unfold TableCache.FindFile
  cases hl : tc.file_cache.Lookup file_number with
  | mk res c1 =>
    cases res with
    | some h =>
      refine ⟨⟨_, List.mem_singleton.2 rfl, rfl⟩, ?_⟩
      intro e he
      rw [List.mem_singleton.1 he]
      simp [Event.cacheOf]
    | none =>
      simp only
      cases hf : loadFilter cfg env
          (match env.NewRandomAccessFileLearned (.ldb file_number) with
            | .ok f => some f
            | .error _ => none) file_size with
      | ret filter =>
        refine ⟨⟨.Lookup .file_cache file_number none, by simp, rfl⟩, ?_⟩
        intro e he
        simp only [List.mem_append, List.mem_cons, List.mem_singleton, List.not_mem_nil,
          or_false] at he
        rcases he with (he | he) | he <;> subst he <;> simp [Event.cacheOf]
      | abort =>
        refine ⟨⟨.Lookup .file_cache file_number none, by simp, rfl⟩, ?_⟩
        intro e he
        simp only [List.mem_cons, List.mem_singleton, List.not_mem_nil, or_false] at he
        rcases he with he | he <;> subst he <;> simp [Event.cacheOf]
      | diverge =>
        refine ⟨⟨.Lookup .file_cache file_number none, by simp, rfl⟩, ?_⟩
        intro e he
        simp only [List.mem_cons, List.mem_singleton, List.not_mem_nil, or_false] at he
        rcases he with he | he <;> subst he <;> simp [Event.cacheOf]

theorem callbackEvents_cacheOf {K V : Type} (calls : List (K × V)) :
    ∀ e ∈ callbackEvents calls, e.cacheOf = none := by
  intro e he
  unfold callbackEvents at he
  obtain ⟨c, _, rfl⟩ := List.mem_map.1 he
  rfl

/-- Every `LevelRead` run operates on the file+filter cache and never on the handle
cache. -/
theorem LevelRead_events_cache {σ K V T : Type} (cfg : Config K) (env : Env σ K V T)
    (tc : TableCache K V T) (fuel file_number file_size : Nat) (k : K) (arg : σ)
    (handle_result : σ → K → V → σ) (m : FileMetaData) (lower upper : Nat)
    (learned : Bool) :
    (∃ e ∈ (TableCache.LevelRead cfg env tc fuel file_number file_size k arg handle_result
        m lower upper learned).events, e.cacheOf = some .file_cache) ∧
    ∀ e ∈ (TableCache.LevelRead cfg env tc fuel file_number file_size k arg handle_result
        m lower upper learned).events, e.cacheOf ≠ some .cache_ := by
  obtain ⟨⟨e0, he0, hc0⟩, hall⟩ := FindFile_events_cache cfg env tc file_number file_size
  have hcb : ∀ (calls : List (K × V)) (e : Event K V), e ∈ callbackEvents calls →
      e.cacheOf ≠ some .cache_ := by
    intro calls e he
    rw [callbackEvents_cacheOf calls e he]
    simp
  unfold TableCache.LevelRead
  simp only
  split
  · exact ⟨⟨e0, he0, hc0⟩, hall⟩
  · exact ⟨⟨e0, he0, hc0⟩, hall⟩
  · split
    · exact ⟨⟨e0, he0, hc0⟩, hall⟩
    · split
      · refine ⟨⟨e0, List.mem_append_left _ he0, hc0⟩, ?_⟩
        intro e he
        rcases List.mem_append.1 he with h | h
        · exact hall e h
        · exact hcb _ e h
      · refine ⟨⟨e0, List.mem_append_left _ he0, hc0⟩, ?_⟩
        intro e he
        rcases List.mem_append.1 he with h | h
        · exact hall e h
        · exact hcb _ e h
      · refine ⟨⟨e0, List.mem_append_left _ (List.mem_append_left _ he0), hc0⟩, ?_⟩
        intro e he
        rcases List.mem_append.1 he with h | h
        · rcases List.mem_append.1 h with h | h
          · exact hall e h
          · exact hcb _ e h
        · rw [List.mem_singleton.1 h]
          simp [Event.cacheOf]

theorem FindTable_events_cache {σ K V T : Type} (env : Env σ K V T) (tc : TableCache K V T)
    (file_number file_size : Nat) :
    (∃ e ∈ (TableCache.FindTable env tc file_number file_size).events,
      e.cacheOf = some .cache_) ∧
    ∀ e ∈ (TableCache.FindTable env tc file_number file_size).events,
      e.cacheOf ≠ some .file_cache := by
  unfold TableCache.FindTable
  cases hl : tc.cache_.Lookup file_number with
  | mk res c1 =>
    cases res with
    | some h =>
      refine ⟨⟨_, List.mem_singleton.2 rfl, rfl⟩, ?_⟩
      intro e he
      rw [List.mem_singleton.1 he]
      simp [Event.cacheOf]
    | none =>
      simp only
      refine ⟨?_, ?_⟩
      · refine ⟨.Lookup .cache_ file_number none, ?_, rfl⟩
        cases h1 : env.NewRandomAccessFile (.ldb file_number) with
        | ok f =>
          simp only
          cases ht : env.TableOpen f file_size <;> simp
        | error c =>
          simp only
          cases h2 : env.NewRandomAccessFile (.sst file_number) with
          | ok f =>
            simp only
            cases ht : env.TableOpen f file_size <;> simp
          | error c2 => simp
      · intro e he
        cases h1 : env.NewRandomAccessFile (.ldb file_number) with
        | ok f =>
          simp only [h1] at he
          cases ht : env.TableOpen f file_size <;> simp only [ht] at he <;>
            simp only [List.mem_append, List.mem_cons, List.mem_singleton, List.not_mem_nil,
              or_false] at he <;>
            rcases he with (he | he) | he <;> subst he <;> simp [Event.cacheOf]
        | error c =>
          simp only [h1] at he
          cases h2 : env.NewRandomAccessFile (.sst file_number) with
          | ok f =>
            simp only [h2] at he
            cases ht : env.TableOpen f file_size <;> simp only [ht] at he <;>
              simp only [List.mem_append, List.mem_cons, List.mem_singleton,
                List.not_mem_nil, or_false] at he <;>
              rcases he with (he | he | he) | he <;> subst he <;> simp [Event.cacheOf]
          | error c2 =>
            simp only [h2] at he
            simp only [List.mem_append, List.mem_cons, List.mem_singleton, List.not_mem_nil,
              or_false] at he
            rcases he with he | he | he <;> subst he <;> simp [Event.cacheOf]

/-- Every conventional `Get` run operates on the handle cache and never on the file+filter
cache. -/
theorem GetConventional_events_cache {σ K V T : Type} (env : Env σ K V T)
    (tc : TableCache K V T) (file_number file_size : Nat) (k : K) (arg : σ)
    (handle_result : σ → K → V → σ) (meta : Option FileMetaData) (lower upper : Nat)
    (learned : Bool) (version : Nat) :
    (∃ e ∈ (TableCache.GetConventional env tc file_number file_size k arg handle_result
        meta lower upper learned version).events, e.cacheOf = some .cache_) ∧
    ∀ e ∈ (TableCache.GetConventional env tc file_number file_size k arg handle_result
        meta lower upper learned version).events, e.cacheOf ≠ some .file_cache := by
  obtain ⟨⟨e0, he0, hc0⟩, hall⟩ := FindTable_events_cache env tc file_number file_size
  unfold TableCache.GetConventional
  simp only
  split
  · exact ⟨⟨e0, he0, hc0⟩, hall⟩
  · exact ⟨⟨e0, he0, hc0⟩, hall⟩
  · split_ifs
    · split
      · refine ⟨⟨e0, List.mem_append_left _ (List.mem_append_left _ he0), hc0⟩, ?_⟩
        intro e he
        rcases List.mem_append.1 he with h | h
        · rcases List.mem_append.1 h with h | h
          · exact hall e h
          · rw [callbackEvents_cacheOf _ e h]
            simp
        · rw [List.mem_singleton.1 h]
          simp [Event.cacheOf]
      · exact ⟨⟨e0, he0, hc0⟩, hall⟩
    · exact ⟨⟨e0, he0, hc0⟩, hall⟩

/-- When the trigger condition holds, `Get` is `LevelRead` followed by `return Status::OK()`. -/
theorem Get_learned_run {σ K V T : Type} (cfg : Config K) (env : Env σ K V T)
    (tc : TableCache K V T) (fuel file_number file_size : Nat) (k : K) (arg : σ)
    (handle_result : σ → K → V → σ) (meta : Option FileMetaData) (lower upper : Nat)
    (learned : Bool) (version : Nat)
    (hsel : learnedPathSelected cfg env meta learned version) :
    ∃ m, meta = some m ∧
      (TableCache.Get cfg env tc fuel file_number file_size k arg handle_result meta
        lower upper learned version).events
        = (TableCache.LevelRead cfg env tc fuel file_number file_size k arg handle_result
            m lower upper learned).events ∧
      (TableCache.Get cfg env tc fuel file_number file_size k arg handle_result meta
        lower upper learned version).tc
        = (TableCache.LevelRead cfg env tc fuel file_number file_size k arg handle_result
            m lower upper learned).tc ∧
      ∀ a, (TableCache.LevelRead cfg env tc fuel file_number file_size k arg
          handle_result m lower upper learned).out = .ret a →
        (TableCache.Get cfg env tc fuel file_number file_size k arg handle_result meta
          lower upper learned version).out = .ret (.OK, a) := by
  obtain ⟨hmod, m, hm, hl⟩ := hsel
  refine ⟨m, hm, ?_⟩
  subst hm
  have hl2 : (learned || env.Learned version m) = true := by
    rcases hl with h | h <;> simp [h]
  unfold TableCache.Get
  simp only [hmod, Option.isSome_some, and_self, if_true, hl2]
  cases hout : (TableCache.LevelRead cfg env tc fuel file_number file_size k arg
      handle_result m lower upper learned).out with
  | ret a => exact ⟨rfl, rfl, fun a2 h2 => by cases h2; rfl⟩
  | abort => exact ⟨rfl, rfl, fun a2 h2 => by cases h2⟩
  | diverge => exact ⟨rfl, rfl, fun a2 h2 => by cases h2⟩

/-- C7: `Get` runs the learned reader exactly when the mode selector is 6 or 7, file
metadata is supplied, and `learned` is true or the registry reports the model ready: in
that case its events and caches are those of `LevelRead` and it returns OK when
`LevelRead` returns; in every other case the call is the conventional reader (`FindTable`
followed by `InternalGet`).  Seen from outside: the file+filter cache is operated on
exactly when the condition holds, the handle cache exactly when it does not. -/
theorem Get_path_selection {σ K V T : Type} (cfg : Config K) (env : Env σ K V T)
    (tc : TableCache K V T) (fuel file_number file_size : Nat) (k : K) (arg : σ)
    (handle_result : σ → K → V → σ) (meta : Option FileMetaData) (lower upper : Nat)
    (learned : Bool) (version : Nat) :
    (learnedPathSelected cfg env meta learned version ↔
      ∃ e ∈ (TableCache.Get cfg env tc fuel file_number file_size k arg handle_result meta
        lower upper learned version).events, e.cacheOf = some .file_cache) ∧
    (¬ learnedPathSelected cfg env meta learned version ↔
      ∃ e ∈ (TableCache.Get cfg env tc fuel file_number file_size k arg handle_result meta
        lower upper learned version).events, e.cacheOf = some .cache_) ∧
    (learnedPathSelected cfg env meta learned version →
      ∃ m, meta = some m ∧
        (TableCache.Get cfg env tc fuel file_number file_size k arg handle_result meta
          lower upper learned version).events
          = (TableCache.LevelRead cfg env tc fuel file_number file_size k arg handle_result
              m lower upper learned).events ∧
        (TableCache.Get cfg env tc fuel file_number file_size k arg handle_result meta
          lower upper learned version).tc
          = (TableCache.LevelRead cfg env tc fuel file_number file_size k arg handle_result
              m lower upper learned).tc ∧
        ∀ a, (TableCache.LevelRead cfg env tc fuel file_number file_size k arg
            handle_result m lower upper learned).out = .ret a →
          (TableCache.Get cfg env tc fuel file_number file_size k arg handle_result meta
            lower upper learned version).out = .ret (.OK, a)) ∧
    (¬ learnedPathSelected cfg env meta learned version →
      TableCache.Get cfg env tc fuel file_number file_size k arg handle_result meta
          lower upper learned version
        = TableCache.GetConventional env tc file_number file_size k arg handle_result meta
            lower upper learned version) := by
  have hlearned := Get_learned_run cfg env tc fuel file_number file_size k arg handle_result
    meta lower upper learned version
  have hconv : ¬ learnedPathSelected cfg env meta learned version →
      TableCache.Get cfg env tc fuel file_number file_size k arg handle_result meta
          lower upper learned version
        = TableCache.GetConventional env tc file_number file_size k arg handle_result meta
            lower upper learned version := by
    intro hnot
    unfold TableCache.Get
    simp only
    split_ifs with hc
    · cases meta with
      | none => rfl
      | some m =>
        simp only
        split_ifs with hl
        · exfalso
          apply hnot
          refine ⟨hc.1, m, rfl, ?_⟩
          simpa using hl
        · rfl
    · rfl
  refine ⟨?_, ?_, hlearned, hconv⟩
  · constructor
    · intro hsel
      obtain ⟨m, _, hev, _, _⟩ := hlearned hsel
      rw [hev]
      exact (LevelRead_events_cache cfg env tc fuel file_number file_size k arg
        handle_result m lower upper learned).1
    · rintro ⟨e, he, hce⟩
      by_contra hnot
      rw [hconv hnot] at he
      exact (GetConventional_events_cache env tc file_number file_size k arg handle_result
        meta lower upper learned version).2 e he hce
  · constructor
    · intro hnot
      rw [hconv hnot]
      exact (GetConventional_events_cache env tc file_number file_size k arg handle_result
        meta lower upper learned version).1
    · rintro ⟨e, he, hce⟩ hsel
      obtain ⟨m, _, hev, _, _⟩ := hlearned hsel
      rw [hev] at he
      exact (LevelRead_events_cache cfg env tc fuel file_number file_size k arg
        handle_result m lower upper learned).2 e he hce

/-! ## Absent keys through Get -/

/-- On the learned path `Get` returns OK whenever it returns. -/
theorem Get_learned_status {σ K V T : Type} (cfg : Config K) (env : Env σ K V T)
    (tc : TableCache K V T) (fuel file_number file_size : Nat) (k : K) (arg : σ)
    (handle_result : σ → K → V → σ) (meta : Option FileMetaData) (lower upper : Nat)
    (learned : Bool) (version : Nat) (s : Status) (a : σ)
    (hsel : learnedPathSelected cfg env meta learned version)
    (hret : (TableCache.Get cfg env tc fuel file_number file_size k arg handle_result meta
      lower upper learned version).out = .ret (s, a)) : s = .OK := by
  obtain ⟨hmod, m, hm, hl⟩ := hsel
  subst hm
  have hl2 : (learned || env.Learned version m) = true := by
    rcases hl with h | h <;> simp [h]
  unfold TableCache.Get at hret
  simp only [hmod, Option.isSome_some, and_self, if_true, hl2] at hret
  split at hret
  · injection hret with h
    injection h with h1 h2
    exact h1.symm
  · cases hret
  · cases hret

/-- C3 at its failing inputs, on the learned path.  When the `ReadBlock` of the filter block
fails in `FindFile`, `Get` carries on and returns OK.  When the sample file opens and every
`Read` on it fails with an I/O error, `Get` does not return that status either: the
`assert(s.ok())` after the bounded read stops the run.  Whenever `Get` returns on the
learned path the status is OK.  The conventional path of the same function does hand the
error of a failed open back to the caller. -/
theorem learned_get_hides_read_failure :
    ((filterReadFailEnv.filterSteps sampleFile 100).filter_read = .error .IOError ∧
      (TableCache.Get filterConfig filterReadFailEnv emptyTableCache 2 7 100 30 ()
        ignoreResult (some ⟨7, 100⟩) 0 3 true 0).out = .ret (.OK, ())) ∧
    ((({ sampleFile with Read := fun _ _ => Status.error Code.IOError } :
        RandomAccessFile Nat Nat).Read 8 8 = .error .IOError) ∧
      (TableCache.Get sampleConfig failingReadEnv emptyTableCache 2 7 100 30 () ignoreResult
        (some ⟨7, 100⟩) 0 3 true 0).out = .abort) ∧
    (∀ (cfg : Config Nat) (env : Env Unit Nat Nat Unit) (tc : TableCache Nat Nat Unit)
        (fuel file_number file_size k : Nat) (handle_result : Unit → Nat → Nat → Unit)
        (meta : Option FileMetaData) (lower upper : Nat) (learned : Bool) (version : Nat)
        (s : Status) (a : Unit),
      learnedPathSelected cfg env meta learned version →
      (TableCache.Get cfg env tc fuel file_number file_size k () handle_result meta lower
        upper learned version).out = .ret (s, a) → s = .OK) ∧
    (TableCache.Get conventionalConfig brokenEnv emptyTableCache 2 7 100 30 () ignoreResult
        (some ⟨7, 100⟩) 0 3 true 0).out = .ret (.error .IOError, ()) := by
  refine ⟨⟨rfl, rfl⟩, ⟨rfl, rfl⟩, ?_, rfl⟩
  intro cfg env tc fuel file_number file_size k handle_result meta lower upper learned
    version s a hsel hret
  exact Get_learned_status cfg env tc fuel file_number file_size k () handle_result meta
    lower upper learned version s a hsel hret

/-- C6 at its failing input: filters off, nothing cached, and the open of file 7 fails.
`FindFile` drops the status of `NewRandomAccessFileLearned` and inserts an entry with a
null file into the file+filter cache; a follow-up `FindFile` for file 7, on a filesystem
where the open would now succeed, hits that entry and attempts no open. -/
theorem FindFile_caches_failed_open :
    (TableCache.FindFile sampleConfig brokenEnv emptyTableCache 7 100).out = .ret 0 ∧
    (TableCache.FindFile sampleConfig brokenEnv emptyTableCache 7 100).events
      = [.Lookup .file_cache 7 none, .NewRandomAccessFileLearned (.ldb 7) false,
          .Insert .file_cache 7 0] ∧
    ((TableCache.FindFile sampleConfig brokenEnv emptyTableCache 7 100).tc.file_cache.Value
        0).map (fun v => v.file.isSome) = some false ∧
    (TableCache.FindFile sampleConfig sampleEnv
        (TableCache.FindFile sampleConfig brokenEnv emptyTableCache 7 100).tc 7 100).events
      = [.Lookup .file_cache 7 (some 0)] ∧
    (TableCache.FindFile sampleConfig sampleEnv emptyTableCache 7 100).events
      = [.Lookup .file_cache 7 none, .NewRandomAccessFileLearned (.ldb 7) true,
          .Insert .file_cache 7 0] := by
  refine ⟨rfl, rfl, rfl, rfl, rfl⟩

end leveldb

/-! ## toCode preserves the order of equal-length keys -/

theorem foldl_min_le (l : List Int) :
    ∀ init : Int, l.foldl min init ≤ init ∧ ∀ x ∈ l, l.foldl min init ≤ x := by
  induction l with
  | nil => intro init; exact ⟨le_refl _, by simp⟩
  | cons y ys ih =>
    intro init
    obtain ⟨h1, h2⟩ := ih (min init y)
    simp only [List.foldl_cons]
    refine ⟨le_trans h1 (min_le_left _ _), ?_⟩
    intro x hx
    rcases List.mem_cons.1 hx with h | h
    · rw [h]; exact le_trans h1 (min_le_right _ _)
    · exact h2 x h

theorem le_foldl_max (l : List Int) :
    ∀ init : Int, init ≤ l.foldl max init ∧ ∀ x ∈ l, x ≤ l.foldl max init := by
  induction l with
  | nil => intro init; exact ⟨le_refl _, by simp⟩
  | cons y ys ih =>
    intro init
    obtain ⟨h1, h2⟩ := ih (max init y)
    simp only [List.foldl_cons]
    refine ⟨le_trans (le_max_left _ _) h1, ?_⟩
    intro x hx
    rcases List.mem_cons.1 hx with h | h
    · rw [h]; exact le_trans (le_max_right _ _) h1
    · exact h2 x h

theorem colMin_le (keys : List (List Int)) (key : List Int) (hk : key ∈ keys) (i : Nat) :
    colMin keys i ≤ key.getD i 0 := by
  unfold colMin minElement
  exact (foldl_min_le _ _).2 _ (List.mem_map.2 ⟨key, hk, rfl⟩)

theorem le_colMax (keys : List (List Int)) (key : List Int) (hk : key ∈ keys) (i : Nat) :
    key.getD i 0 ≤ colMax keys i := by
  unfold colMax maxElement
  exact (le_foldl_max _ _).2 _ (List.mem_map.2 ⟨key, hk, rfl⟩)

theorem colBase_succ (keys : List (List Int)) (i : Nat) :
    colBase keys (i + 1) = colBase keys i * (colMax keys i - colMin keys i + 1) := rfl

theorem partialCode_succ (keys : List (List Int)) (key : List Int) (m : Nat) :
    partialCode keys key (m + 1)
      = partialCode keys key m + colBase keys m * (key.getD m 0 - colMin keys m) := rfl

theorem colBase_pos (keys : List (List Int)) (key : List Int) (hk : key ∈ keys) :
    ∀ i : Nat, 0 < colBase keys i := by
  intro i
  induction i with
  | zero => simp [colBase]
  | succ i ih =>
    rw [colBase_succ]
    have h1 := colMin_le keys key hk i
    have h2 := le_colMax keys key hk i
    exact mul_pos ih (by omega)

theorem partialCode_bounds (keys : List (List Int)) (key : List Int) (hk : key ∈ keys) :
    ∀ m : Nat, 0 ≤ partialCode keys key m ∧ partialCode keys key m < colBase keys m := by
  intro m
  induction m with
  | zero => simp [partialCode, colBase]
  | succ m ih =>
    rw [partialCode_succ, colBase_succ]
    have h1 := colMin_le keys key hk m
    have h2 := le_colMax keys key hk m
    have hb := colBase_pos keys key hk m
    constructor
    · have := mul_nonneg (le_of_lt hb) (by omega : 0 ≤ key.getD m 0 - colMin keys m)
      omega
    · have hmul : colBase keys m * (key.getD m 0 - colMin keys m)
          ≤ colBase keys m * (colMax keys m - colMin keys m) :=
        mul_le_mul_of_nonneg_left (by omega) (le_of_lt hb)
      have : colBase keys m * (colMax keys m - colMin keys m + 1)
          = colBase keys m * (colMax keys m - colMin keys m) + colBase keys m := by ring
      omega

theorem partialCode_eq (keys : List (List Int)) (x y : List Int) :
    ∀ m : Nat, (∀ t, t < m → x.getD t 0 = y.getD t 0) →
      partialCode keys x m = partialCode keys y m := by
  intro m
  induction m with
  | zero => intro _; rfl
  | succ m ih =>
    intro h
    rw [partialCode_succ, partialCode_succ]
    rw [ih (fun t ht => h t (by omega)), h m (by omega)]

theorem partialCode_lt (keys : List (List Int)) (x y : List Int) (hx : x ∈ keys)
    (hy : y ∈ keys) :
    ∀ m j : Nat, j < m → x.getD j 0 < y.getD j 0 →
      (∀ t, j < t → t < m → x.getD t 0 = y.getD t 0) →
      partialCode keys x m < partialCode keys y m := by
  intro m
  induction m with
  | zero => intro j hj; omega
  | succ m ih =>
    intro j hj hlt heq
    rw [partialCode_succ, partialCode_succ]
    rcases Nat.lt_or_eq_of_le (Nat.le_of_lt_succ hj) with h | h
    · have := ih j h hlt (fun t h1 h2 => heq t h1 (by omega))
      rw [heq m h (by omega)]
      omega
    · subst h
      have hb := colBase_pos keys x hx j
      obtain ⟨_, bx⟩ := partialCode_bounds keys x hx j
      obtain ⟨by0, _⟩ := partialCode_bounds keys y hy j
      have hmul : colBase keys j * (x.getD j 0 - colMin keys j + 1)
          ≤ colBase keys j * (y.getD j 0 - colMin keys j) :=
        mul_le_mul_of_nonneg_left (by omega) (le_of_lt hb)
      have : colBase keys j * (x.getD j 0 - colMin keys j + 1)
          = colBase keys j * (x.getD j 0 - colMin keys j) + colBase keys j := by ring
      omega

theorem colex_total (x y : List Int) :
    ∀ m : Nat, (∀ t, t < m → x.getD t 0 = y.getD t 0) ∨
      (∃ j, j < m ∧ x.getD j 0 < y.getD j 0 ∧
        ∀ t, j < t → t < m → x.getD t 0 = y.getD t 0) ∨
      (∃ j, j < m ∧ y.getD j 0 < x.getD j 0 ∧
        ∀ t, j < t → t < m → y.getD t 0 = x.getD t 0) := by
  intro m
  induction m with
  | zero => left; intro t ht; omega
  | succ m ih =>
    rcases lt_trichotomy (x.getD m 0) (y.getD m 0) with h | h | h
    · right; left
      exact ⟨m, by omega, h, fun t h1 h2 => by omega⟩
    · rcases ih with h1 | ⟨j, hj, hlt, heq⟩ | ⟨j, hj, hlt, heq⟩
      · left
        intro t ht
        rcases Nat.lt_or_eq_of_le (Nat.le_of_lt_succ ht) with h2 | h2
        · exact h1 t h2
        · rw [h2]; exact h
      · right; left
        refine ⟨j, by omega, hlt, fun t h2 h3 => ?_⟩
        rcases Nat.lt_or_eq_of_le (Nat.le_of_lt_succ h3) with h4 | h4
        · exact heq t h2 h4
        · rw [h4]; exact h
      · right; right
        refine ⟨j, by omega, hlt, fun t h2 h3 => ?_⟩
        rcases Nat.lt_or_eq_of_le (Nat.le_of_lt_succ h3) with h4 | h4
        · exact heq t h2 h4
        · rw [h4]; exact h.symm
    · right; right
      exact ⟨m, by omega, h, fun t h1 h2 => by omega⟩

theorem toCodeStep_invariant (keys : List (List Int)) :
    ∀ L : Nat,
      ((List.range L).foldl (toCodeStep keys) ⟨[], [], 0, 1⟩).based_char
          = (List.range L).map (colMin keys) ∧
      ((List.range L).foldl (toCodeStep keys) ⟨[], [], 0, 1⟩).based
          = (List.range L).map (colBase keys) ∧
      ((List.range L).foldl (toCodeStep keys) ⟨[], [], 0, 1⟩).ba = colBase keys (L - 1) ∧
      (0 < L → ((List.range L).foldl (toCodeStep keys) ⟨[], [], 0, 1⟩).pre_ba
          = colMax keys (L - 1) - colMin keys (L - 1) + 1) := by
  intro L
  induction L with
  | zero => exact ⟨rfl, rfl, rfl, fun h => absurd h (lt_irrefl 0)⟩
  | succ L ih =>
    obtain ⟨h1, h2, h3, h4⟩ := ih
    rw [List.range_succ, List.foldl_append, List.map_append, List.map_append]
    simp only [List.foldl_cons, List.foldl_nil, List.map_cons, List.map_nil]
    generalize (List.range L).foldl (toCodeStep keys) ⟨[], [], 0, 1⟩ = st at h1 h2 h3 h4 ⊢
    have hba : (if L ≠ 0 then st.ba * st.pre_ba else st.ba) = colBase keys L := by
      rcases Nat.eq_zero_or_pos L with hz | hp
      · subst hz
        rw [if_neg (by simp), h3]
      · rw [if_pos (by omega), h3, h4 hp]
        obtain ⟨n, rfl⟩ : ∃ n, L = n + 1 := ⟨L - 1, by omega⟩
        rfl
    unfold toCodeStep
    simp only [Nat.add_sub_cancel]
    refine ⟨?_, ?_, hba, fun _ => rfl⟩
    · rw [h1]; rfl
    · rw [h2, hba]

theorem toCodeNum_eq (keys : List (List Int)) (L : Nat) (key : List Int)
    (hlen : key.length ≤ L) :
    toCodeNum ((List.range L).foldl (toCodeStep keys) ⟨[], [], 0, 1⟩) key
      = partialCode keys key key.length := by
  obtain ⟨h1, h2, _, _⟩ := toCodeStep_invariant keys L
  unfold toCodeNum
  rw [h1, h2]
  have hgen : ∀ m : Nat, m ≤ L →
      (List.range m).foldl
        (fun num j => num + ((List.range L).map (colBase keys)).getD j 0
          * (key.getD j 0 - ((List.range L).map (colMin keys)).getD j 0)) 0
        = partialCode keys key m := by
    intro m
    induction m with
    | zero => intro _; rfl
    | succ m ih =>
      intro hm
      rw [List.range_succ, List.foldl_append, ih (by omega), partialCode_succ]
      have hm2 : m < L := by omega
      simp [List.getD_eq_getElem?_getD, hm2]
  exact hgen key.length hlen

theorem max_lenth_eq (keys : List (List Int)) (L : Nat)
    (hlen : ∀ key ∈ keys, key.length = L) :
    ∀ m : Nat, keys.foldl (fun m key => if key.length > m then key.length else m) m
      = if keys = [] then m else max m L := by
  induction keys with
  | nil => intro m; rfl
  | cons key rest ih =>
    intro m
    have hk : key.length = L := hlen key (List.mem_cons_self _ _)
    have hrest : ∀ k ∈ rest, k.length = L := fun k h => hlen k (List.mem_cons_of_mem _ h)
    simp only [List.foldl_cons]
    rw [ih hrest, hk]
    simp only [List.cons_ne_nil, if_false]
    by_cases hr : rest = []
    · rw [if_pos hr]
      split_ifs <;> omega
    · rw [if_neg hr]
      split_ifs <;> omega

theorem lexLt_iff :
    ∀ a b : List Int, a.length = b.length →
      (lexLt a b = true ↔
        ∃ i, i < a.length ∧ a.getD i 0 < b.getD i 0 ∧
          ∀ s, s < i → a.getD s 0 = b.getD s 0) := by
  intro a
  induction a with
  | nil =>
    intro b hb
    cases b with
    | nil => simp [lexLt]
    | cons y ys => simp at hb
  | cons x xs ih =>
    intro b hb
    cases b with
    | nil => simp at hb
    | cons y ys =>
      have hlen : xs.length = ys.length := by simpa using hb
      simp only [lexLt, Bool.or_eq_true, Bool.and_eq_true, decide_eq_true_eq, beq_iff_eq,
        List.length_cons]
      rw [ih ys hlen]
      constructor
      · rintro (h | ⟨hxy, i, hi, hlt, heq⟩)
        · exact ⟨0, by omega, by simpa using h, fun s hs => by omega⟩
        · refine ⟨i + 1, by omega, by simpa using hlt, ?_⟩
          intro s hs
          cases s with
          | zero => simpa using hxy
          | succ s => simpa using heq s (by omega)
      · rintro ⟨i, hi, hlt, heq⟩
        cases i with
        | zero => left; simpa using hlt
        | succ i =>
          right
          refine ⟨by simpa using heq 0 (by omega), i, by omega, by simpa using hlt, ?_⟩
          intro s hs
          simpa using heq (s + 1) (by omega)

theorem getD_reverse (a : List Int) (j : Nat) (h : j < a.length) :
    a.reverse.getD j 0 = a.getD (a.length - 1 - j) 0 := by
  have h2 : a.length - 1 - j < a.length := by omega
  simp [List.getD_eq_getElem?_getD, h, h2, List.getElem?_reverse]

/-- Lexicographic order of two keys of length `L` is the order that compares the reversed
keys from their last column down. -/
theorem lexLt_iff_reverse (a b : List Int) (L : Nat) (ha : a.length = L)
    (hb : b.length = L) :
    lexLt a b = true ↔
      ∃ j, j < L ∧ a.reverse.getD j 0 < b.reverse.getD j 0 ∧
        ∀ t, j < t → t < L → a.reverse.getD t 0 = b.reverse.getD t 0 := by
  rw [lexLt_iff a b (by rw [ha, hb])]
  constructor
  · rintro ⟨i, hi, hlt, heq⟩
    rw [ha] at hi
    refine ⟨L - 1 - i, by omega, ?_, ?_⟩
    · rw [getD_reverse a _ (by omega), getD_reverse b _ (by omega), ha, hb]
      have : L - 1 - (L - 1 - i) = i := by omega
      rw [this]; exact hlt
    · intro t h1 h2
      rw [getD_reverse a _ (by omega), getD_reverse b _ (by omega), ha, hb]
      exact heq _ (by omega)
  · rintro ⟨j, hj, hlt, heq⟩
    refine ⟨L - 1 - j, by omega, ?_, ?_⟩
    · rw [getD_reverse a _ (by omega), getD_reverse b _ (by omega), ha, hb] at hlt
      exact hlt
    · intro s hs
      have h := heq (L - 1 - s) (by omega) (by omega)
      rw [getD_reverse a _ (by omega), getD_reverse b _ (by omega), ha, hb] at h
      have : L - 1 - (L - 1 - s) = s := by omega
      rw [this] at h; exact h

theorem eq_of_getD_eq (x y : List Int) (L : Nat) (hx : x.length = L) (hy : y.length = L)
    (h : ∀ t, t < L → x.getD t 0 = y.getD t 0) : x = y := by
  apply List.ext_getElem (by rw [hx, hy])
  intro n h1 h2
  have := h n (by omega)
  rw [List.getD_eq_getElem _ _ h1, List.getD_eq_getElem _ _ h2] at this
  exact this

theorem partialCode_lt_iff (keys : List (List Int)) (x y : List Int) (hx : x ∈ keys)
    (hy : y ∈ keys) (m : Nat) :
    partialCode keys x m < partialCode keys y m ↔
      ∃ j, j < m ∧ x.getD j 0 < y.getD j 0 ∧
        ∀ t, j < t → t < m → x.getD t 0 = y.getD t 0 := by
  constructor
  · intro hlt
    rcases colex_total x y m with h | h | ⟨j, hj, hlt2, heq⟩
    · rw [partialCode_eq keys x y m h] at hlt
      exact absurd hlt (lt_irrefl _)
    · exact h
    · have := partialCode_lt keys y x hy hx m j hj hlt2 heq
      omega
  · rintro ⟨j, hj, hlt, heq⟩
    exact partialCode_lt keys x y hx hy m j hj hlt heq

theorem partialCode_eq_iff (keys : List (List Int)) (x y : List Int) (hx : x ∈ keys)
    (hy : y ∈ keys) (m : Nat) :
    partialCode keys x m = partialCode keys y m ↔ ∀ t, t < m → x.getD t 0 = y.getD t 0 := by
  constructor
  · intro heq
    rcases colex_total x y m with h | ⟨j, hj, hlt2, he⟩ | ⟨j, hj, hlt2, he⟩
    · exact h
    · have := partialCode_lt keys x y hx hy m j hj hlt2 he
      omega
    · have := partialCode_lt keys y x hy hx m j hj hlt2 he
      omega
  · exact partialCode_eq keys x y m

/-- The code that `toCode` assigns to the key at index `a`. -/
theorem toCode_getD (keys : List (List Int)) (L : Nat)
    (hlen : ∀ key ∈ keys, key.length = L) (a : Nat) (ha : a < keys.length) :
    (toCode keys).getD a 0
      = partialCode (keys.map List.reverse) (keys.getD a []).reverse L := by
  have hne : keys ≠ [] := by
    intro h
    rw [h] at ha
    exact absurd ha (Nat.not_lt_zero _)
  have hlen2 : ∀ key ∈ keys.map List.reverse, key.length = L := by
    intro key hk
    obtain ⟨k0, hk0, rfl⟩ := List.mem_map.1 hk
    rw [List.length_reverse]
    exact hlen k0 hk0
  have hne2 : keys.map List.reverse ≠ [] := by
    intro h
    exact hne (List.map_eq_nil_iff.1 h)
  unfold toCode
  simp only
  rw [max_lenth_eq (keys.map List.reverse) L hlen2 0, if_neg hne2, Nat.zero_max]
  have ha2 : a < (keys.map List.reverse).length := by rw [List.length_map]; exact ha
  have hget : (List.map (toCodeNum ((List.range L).foldl
        (toCodeStep (keys.map List.reverse)) ⟨[], [], 0, 1⟩)) (keys.map List.reverse)).getD a 0
      = toCodeNum ((List.range L).foldl (toCodeStep (keys.map List.reverse)) ⟨[], [], 0, 1⟩)
          (keys.getD a []).reverse := by
    simp [List.getD_eq_getElem?_getD, ha]
  rw [hget]
  have hka : (keys.getD a []).length = L := by
    apply hlen
    rw [List.getD_eq_getElem _ _ ha]
    exact List.getElem_mem _
  rw [toCodeNum_eq (keys.map List.reverse) L _ (by rw [List.length_reverse, hka]),
    List.length_reverse, hka]

/-- C10: for keys that all have the same length `L`, with characters as their numeric
values and codes as unbounded integers, `toCode` returns one code per key in input order,
and for all indices `a`, `b` the key at `a` is lexicographically smaller than the key at
`b` if and only if `code[a] < code[b]`; equal keys get equal codes and distinct keys get
distinct codes.  (The empty list and `L = 0` are covered as well.) -/
theorem toCode_order_preserving (keys : List (List Int)) (L : Nat)
    (hlen : ∀ key ∈ keys, key.length = L) :
    (toCode keys).length = keys.length ∧
    ∀ a b : Nat, a < keys.length → b < keys.length →
      (lexLt (keys.getD a []) (keys.getD b []) = true ↔
        (toCode keys).getD a 0 < (toCode keys).getD b 0) ∧
      (keys.getD a [] = keys.getD b [] ↔
        (toCode keys).getD a 0 = (toCode keys).getD b 0) := by
  constructor
  · unfold toCode
    simp
  · intro a b ha hb
    have hma : keys.getD a [] ∈ keys := by
      rw [List.getD_eq_getElem _ _ ha]
      exact List.getElem_mem _
    have hmb : keys.getD b [] ∈ keys := by
      rw [List.getD_eq_getElem _ _ hb]
      exact List.getElem_mem _
    have hra : (keys.getD a []).reverse ∈ keys.map List.reverse :=
      List.mem_map.2 ⟨_, hma, rfl⟩
    have hrb : (keys.getD b []).reverse ∈ keys.map List.reverse :=
      List.mem_map.2 ⟨_, hmb, rfl⟩
    rw [toCode_getD keys L hlen a ha, toCode_getD keys L hlen b hb]
    constructor
    · rw [lexLt_iff_reverse _ _ L (hlen _ hma) (hlen _ hmb)]
      exact (partialCode_lt_iff _ _ _ hra hrb L).symm
    · rw [partialCode_eq_iff _ _ _ hra hrb L]
      constructor
      · intro h t _
        rw [h]
      · intro h
        have := eq_of_getD_eq _ _ L (by rw [List.length_reverse]; exact hlen _ hma)
          (by rw [List.length_reverse]; exact hlen _ hmb) h
        exact List.reverse_injective this

/-- C10 on the keys "abc", "abd", "baa", "aca". -/
theorem toCode_order_preserving_witness :
    (toCode sampleKeys).length = sampleKeys.length ∧
    ∀ a b : Nat, a < sampleKeys.length → b < sampleKeys.length →
      (lexLt (sampleKeys.getD a []) (sampleKeys.getD b []) = true ↔
        (toCode sampleKeys).getD a 0 < (toCode sampleKeys).getD b 0) ∧
      (sampleKeys.getD a [] = sampleKeys.getD b [] ↔
        (toCode sampleKeys).getD a 0 = (toCode sampleKeys).getD b 0) :=
  toCode_order_preserving sampleKeys 3 (by decide)

namespace leveldb

end leveldb
